import Mathlib

/-!
# Verification of the marped include-watcher core

Shallow embedding of `marp-engine/marped.py`: the include resolver
(`find_includes`), the filesystem-event router (`FileWatcher.on_any_event`
and `_handle_file_modified`), and the per-file supervision loop of
`run_app`.

Modelling conventions:
* Paths are `String`s.  `os.path.dirname` and `os.path.join` are embedded
  as the POSIX string functions `pyDirname` and `pyJoin`.
* The filesystem is a value of type `FS`: a finite association list of
  file contents (absent key = `FileNotFoundError`, an entry may also carry
  a non-not-found read error), plus `Path.resolve` and `Path.parent`
  as abstract path functions (their behaviour depends on the OS state,
  which the Python code consults through `pathlib`).
* The regex `!!!include\((.*?)\)!!!` of `re.findall` is embedded as the
  character-list scanner `scanIncludes` (leftmost, non-overlapping, lazy
  capture of non-newline characters).
* The unbounded `while files_to_process:` loop is embedded with an explicit
  fuel argument; `suffFuel` is proved sufficient (`findIncludesAux_stable`),
  so `find_includes` computes the loop's true result.
* Python `set`s become `Finset String`; `print` reports become an
  accumulated list of messages.
-/

/-! ## POSIX path helpers (`os.path.dirname`, `os.path.join`) -/

/-- Boolean test that `p` occurs at the start of `l`. -/
def listHasPfx : List Char → List Char → Bool
  | [], _ => true
  | _ :: _, [] => false
  | a :: as, b :: bs => a == b && listHasPfx as bs

/-- `os.path.dirname`: `p[:p.rfind('/')+1]`, right-stripped of `'/'`
unless the head is empty or consists only of slashes. -/
def pyDirname (p : String) : String :=
  let head : List Char := (p.data.reverse.dropWhile (fun c => c ≠ '/')).reverse
  if head = [] ∨ head.all (fun c => c = '/') then String.mk head
  else String.mk (head.reverse.dropWhile (fun c => c = '/')).reverse

/-- `os.path.join a b` for POSIX paths (two-argument form). -/
def pyJoin (a b : String) : String :=
  if listHasPfx ['/'] b.data then b
  else if a = "" ∨ listHasPfx ['/'] a.data.reverse then a ++ b
  else a ++ "/" ++ b

/-- `str.endswith('.swp')`. -/
def endsWithSwp (s : String) : Bool :=
  listHasPfx ".swp".data.reverse s.data.reverse

/-! ## The include-directive scanner: `re.findall(r'!!!include\((.*?)\)!!!', content)` -/

/-- The literal opening token of the include directive. -/
def openTok : List Char := "!!!include(".data

/-- The literal closing token of the include directive. -/
def closeTok : List Char := ")!!!".data

/-- Lazy capture: the shortest newline-free prefix of `l` that is followed
by `)!!!`; returns the capture and the remainder after the closing token. -/
def matchCapture : List Char → Option (List Char × List Char)
  | [] => none
  | c :: cs =>
    if listHasPfx closeTok (c :: cs) then some ([], (c :: cs).drop 4)
    else if c = '\n' then none
    else
      match matchCapture cs with
      | some (a, r) => some (c :: a, r)
      | none => none

/-- Leftmost non-overlapping scan for include directives, continuing after
each full match, advancing one character on failure to match.  The fuel
argument makes the recursion structural; every recursive call shortens the
scanned list, so fuel `l.length` is never exhausted (`scanIncludesAux_stable`). -/
def scanIncludesAux : Nat → List Char → List (List Char)
  | 0, _ => []
  | _ + 1, [] => []
  | fuel + 1, c :: cs =>
    if listHasPfx openTok (c :: cs) then
      match matchCapture ((c :: cs).drop 11) with
      | some (a, rest) => a :: scanIncludesAux fuel rest
      | none => scanIncludesAux fuel cs
    else scanIncludesAux fuel cs

/-- The leftmost-scan of `re.findall` at fuel `l.length`. -/
def scanIncludes (l : List Char) : List (List Char) :=
  scanIncludesAux l.length l

/-- All include arguments found in a file's content, in textual order. -/
def extractIncludes (content : String) : List String :=
  (scanIncludes content.data).map String.mk

/-! ## The filesystem model -/

/-- Result of `open(path).read()` when the file exists: either its content,
or a non-`FileNotFoundError` exception message (e.g. a permission error). -/
inductive ReadResult where
  | content (s : String)
  | readError (msg : String)
deriving DecidableEq

/-- Filesystem model: finite file table plus the `pathlib` operations
`Path.resolve` (symlink-free absolute form) and `Path.parent`. -/
structure FS where
  files : List (String × ReadResult)
  resolve : String → String
  parent : String → String

/-- `open(p).read()` outcome: `none` models `FileNotFoundError`. -/
def readFile (fs : FS) (p : String) : Option ReadResult :=
  (fs.files.find? (fun e => e.1 == p)).map Prod.snd

/-- The successfully read content of `p`, if any. -/
def readSuccess (fs : FS) (p : String) : Option String :=
  match readFile fs p with
  | some (ReadResult.content c) => some c
  | _ => none

/-- The diagnostic printed by `find_includes` for an unreadable file. -/
def errObj (fs : FS) (p : String) : String :=
  match readFile fs p with
  | none => "File not found: " ++ p
  | some (ReadResult.readError e) => "Error processing file " ++ p ++ ": " ++ e
  | some (ReadResult.content _) => ""

/-- The full queued paths of the directives inside `p`, i.e.
`os.path.join(os.path.dirname(p), match)` for each regex match. -/
def includeTargets (fs : FS) (p : String) : List String :=
  match readFile fs p with
  | some (ReadResult.content c) => (extractIncludes c).map (fun m => pyJoin (pyDirname p) m)
  | _ => []

/-! ## `find_includes` -/

/-- The `for match in matches:` loop: starting from worklist `wl`
(head = top of the Python stack, i.e. the end of `files_to_process`),
push each directive target unless it is already in `original_files` (`o`)
or already pending. -/
def queueIncludes (p : String) (o : Finset String) : List String → List String → List String
  | wl, [] => wl
  | wl, m :: ms =>
    let inc := pyJoin (pyDirname p) m
    queueIncludes p o (if inc ∈ o ∨ inc ∈ wl then wl else inc :: wl) ms

/-- Output of `find_includes`: the three returned collections plus the
diagnostics printed along the way. -/
structure IncludeResult where
  original : Finset String
  resolved : Finset String
  dirs : Finset String
  errors : List String
deriving DecidableEq

/-- One fuelled run of the `while files_to_process:` loop of
`find_includes`.  The worklist is stored reversed (head = next pop). -/
def findIncludesAux (fs : FS) :
    Nat → List String → Finset String → Finset String → Finset String →
    List String → IncludeResult
  | 0, _, o, r, d, errs => ⟨o, r, d, errs⟩
  | _ + 1, [], o, r, d, errs => ⟨o, r, d, errs⟩
  | fuel + 1, p :: tl, o, r, d, errs =>
    if p ∈ o then
      findIncludesAux fs fuel tl o r d errs
    else
      let o' := insert p o
      let rp := fs.resolve p
      let r' := insert rp r
      let d' := insert (fs.parent rp) d
      match readFile fs p with
      | none =>
        findIncludesAux fs fuel tl o' r' d' (errs ++ ["File not found: " ++ p])
      | some (ReadResult.readError e) =>
        findIncludesAux fs fuel tl o' r' d'
          (errs ++ ["Error processing file " ++ p ++ ": " ++ e])
      | some (ReadResult.content c) =>
        findIncludesAux fs fuel (queueIncludes p o' tl (extractIncludes c)) o' r' d' errs

/-- The queued paths contributed by one file-table entry. -/
def entryTargets (e : String × ReadResult) : List String :=
  match e.2 with
  | ReadResult.content c => (extractIncludes c).map (fun m => pyJoin (pyDirname e.1) m)
  | _ => []

/-- Every path any readable file can enqueue. -/
def allTargets (fs : FS) : Finset String :=
  ((fs.files.map entryTargets).flatten).toFinset

/-- An upper bound on how many targets a single file can enqueue. -/
def maxBranch (fs : FS) : Nat :=
  (fs.files.map (fun e => (entryTargets e).length)).foldr Nat.max 0

/-- Termination measure of the worklist loop. -/
def auxMeasure (fs : FS) (wl : List String) (o : Finset String) : Nat :=
  (maxBranch fs + 2) * ((wl.toFinset ∪ allTargets fs) \ o).card + wl.length

/-- Fuel sufficient to drive `findIncludesAux` to a fixed point. -/
def suffFuel (fs : FS) (filename : String) : Nat :=
  auxMeasure fs [filename] ∅

/-- `find_includes(filename)`: original paths, resolved paths, watch
directories, and the printed diagnostics. -/
def find_includes (fs : FS) (filename : String) : IncludeResult :=
  findIncludesAux fs (suffFuel fs filename) [filename] ∅ ∅ ∅ []

/-! ## The include relation and its transitive closure -/

/-- Reachability from the root along include edges (reflexive-transitive
closure of "file `p` queues path `t`", the root itself included). -/
inductive Reach (fs : FS) (root : String) : String → Prop where
  | refl : Reach fs root root
  | step {p t : String} : Reach fs root p → t ∈ includeTargets fs p → Reach fs root t

/-- One-or-more include steps, used to state acyclicity. -/
inductive TransStep (fs : FS) : String → String → Prop where
  | single {p t : String} : t ∈ includeTargets fs p → TransStep fs p t
  | tail {p q t : String} : TransStep fs p q → t ∈ includeTargets fs q → TransStep fs p t

/-! ## Properties of the inner queueing loop -/

/-- The fields of `FileWatcher` that `on_any_event` reads or writes. -/
structure WatcherState where
  main_file_path : String
  main_file_resolved : String
  original_filenames : Finset String
  resolved_filenames : Finset String
  directories_to_watch : Finset String
deriving DecidableEq

/-- A `watchdog` filesystem event as seen by `on_any_event`. -/
structure FsEvent where
  src_path : String
  is_directory : Bool
deriving DecidableEq

/-- `FileWatcher.__init__`: resolve the main file and compute the watch
set with `find_includes`. -/
def FileWatcher_init (fs : FS) (main_file : String) : WatcherState :=
  { main_file_path := main_file
    main_file_resolved := fs.resolve main_file
    original_filenames := (find_includes fs main_file).original
    resolved_filenames := (find_includes fs main_file).resolved
    directories_to_watch := (find_includes fs main_file).dirs }

/-- The watch-set recomputation performed on a root-file event
(`find_includes(self.main_file_path)` and table replacement). -/
def refreshWatch (fs : FS) (w : WatcherState) : WatcherState :=
  { w with
    original_filenames := (find_includes fs w.main_file_path).original
    resolved_filenames := (find_includes fs w.main_file_path).resolved
    directories_to_watch := (find_includes fs w.main_file_path).dirs }

/-- `FileWatcher.on_any_event`; the second component lists the files
touched by `_handle_file_modified` while handling this event. -/
def on_any_event (fs : FS) (w : WatcherState) (e : FsEvent) : WatcherState × List String :=
  if e.is_directory || endsWithSwp e.src_path then (w, [])
  else
    let event_path := e.src_path
    let resolved_event_path := fs.resolve event_path
    let w' :=
      if event_path = w.main_file_path ∨ resolved_event_path = w.main_file_resolved then
        refreshWatch fs w
      else w
    if (¬ (event_path ∈ w'.original_filenames ∨ resolved_event_path ∈ w'.resolved_filenames))
        ∨ resolved_event_path = w.main_file_resolved then
      (w', [])
    else
      (w', [w'.main_file_path])

/-- `Path.touch`: set the file's modification time to `now`. -/
def touchFile (now : Nat) (m : String → Nat) (p : String) : String → Nat :=
  fun q => if q = p then now else m q

/-- Modification times after the touches performed by the handler. -/
def applyTouches (now : Nat) (m : String → Nat) (ts : List String) : String → Nat :=
  ts.foldl (touchFile now) m

/-- Consistency of a watcher state with the path functions of `fs`: the
stored resolved forms are the resolved images of the stored originals.
`FileWatcher.__init__` establishes this (`FileWatcher_init_wf`). -/
def WFState (fs : FS) (w : WatcherState) : Prop :=
  w.main_file_resolved = fs.resolve w.main_file_path ∧
  w.resolved_filenames = w.original_filenames.image fs.resolve

instance (fs : FS) (w : WatcherState) : Decidable (WFState fs w) := by
  unfold WFState; infer_instance

/-- Result of the loop over input files in `run_app`: which files had a
renderer invocation attempted, the diagnostics printed, and the process
exit status. -/
structure AppResult where
  attempted : List String
  messages : List String
  exit_code : Nat
deriving DecidableEq

/-- The diagnostic `run_app` prints when `run_marp` raises a spawn failure
(the exception text carries the attempted file). -/
def spawnFailMsg (f : String) : String :=
  "Exception when running marp: " ++ f

/-- The `for input_filename in input_filenames:` loop of `run_app`,
restricted to the renderer-spawn outcome.  `spawnOk f` tells whether
`subprocess.Popen` can start the renderer for input `f`. -/
def run_app_files (spawnOk : String → Bool) (preview pack : Bool) :
    List String → AppResult
  | [] => ⟨[], [], 0⟩
  | f :: rest =>
    if spawnOk f then
      let r := run_app_files spawnOk preview pack rest
      ⟨f :: r.attempted, r.messages, r.exit_code⟩
    else
      if preview && !pack then
        ⟨[f], [spawnFailMsg f], 1⟩
      else
        let r := run_app_files spawnOk preview pack rest
        ⟨f :: r.attempted, spawnFailMsg f :: r.messages, r.exit_code⟩

/-! ## Concrete instances used as witnesses and counterexamples -/

/-- An empty filesystem (every open raises `FileNotFoundError`); paths
resolve to themselves. -/
def fsEmpty : FS := ⟨[], id, id⟩

/-- Two files including each other: the cyclic include graph. -/
def fsCycle : FS :=
  ⟨[("a.md", ReadResult.content "!!!include(b.md)!!!"),
    ("b.md", ReadResult.content "!!!include(a.md)!!!")], id, id⟩

/-- The scenario of the specification: `deck.md` includes `slides/a.md`,
which includes `slides/b.md` (as `b.md`, relative to `slides/`). -/
def fsDeck : FS :=
  ⟨[("deck.md", ReadResult.content "!!!include(slides/a.md)!!!"),
    ("slides/a.md", ReadResult.content "!!!include(b.md)!!!"),
    ("slides/b.md", ReadResult.content "Slide B")], id, id⟩

/-- A root whose include directive names a `.swp` file. -/
def fsSwpInclude : FS :=
  ⟨[("deck.md", ReadResult.content "!!!include(notes.swp)!!!")], id, id⟩

/-- A root file itself named with a `.swp` suffix, including another file. -/
def fsOldRoot : FS :=
  ⟨[("deck.swp", ReadResult.content "!!!include(old.md)!!!")], id, id⟩

/-- A root including one missing file and one readable file. -/
def fsMissing : FS :=
  ⟨[("deck.md", ReadResult.content "!!!include(missing.md)!!!!!!include(ok.md)!!!"),
    ("ok.md", ReadResult.content "ok")], id, id⟩

/-- The watcher over the deck scenario. -/
def wDeck : WatcherState := FileWatcher_init fsDeck "deck.md"

/-- The watcher over the `.swp`-include scenario. -/
def wSwp : WatcherState := FileWatcher_init fsSwpInclude "deck.md"

/-- A watcher initialised while `deck.swp` still included `old.md`; by event
time the filesystem is `fsEmpty`, so its tables are stale. -/
def wStale : WatcherState := FileWatcher_init fsOldRoot "deck.swp"

/-! ## Lemmas -/

theorem matchCapture_length {l a r : List Char} :
    matchCapture l = some (a, r) → r.length ≤ l.length := by
  induction l generalizing a r with
  | nil => intro h; simp [matchCapture] at h
  | cons c cs ih =>
    intro h
    rw [matchCapture] at h
    by_cases hp : listHasPfx closeTok (c :: cs) = true
    · simp only [hp, if_pos] at h
      cases h
      simp only [List.length_drop]; omega
    · simp only [hp] at h
      by_cases hn : c = '\n'
      · simp [hn] at h
      · simp only [hn, if_neg, if_false] at h
        cases hmc : matchCapture cs with
        | none => rw [hmc] at h; simp at h
        | some pr =>
          rw [hmc] at h
          cases pr with
          | mk a' r' =>
            simp at h
            obtain ⟨ha, hr⟩ := h
            have := ih hmc
            subst hr
            simp only [List.length_cons]; omega

theorem scanIncludesAux_stable :
    ∀ fuel l, l.length ≤ fuel → ∀ k, scanIncludesAux (fuel + k) l = scanIncludesAux fuel l := by
  intro fuel
  induction fuel with
  | zero =>
    intro l hl k
    have : l = [] := by
      cases l with
      | nil => rfl
      | cons a as => simp at hl
    subst this
    cases k with
    | zero => rfl
    | succ k => rfl
  | succ fuel ih =>
    intro l hl k
    cases l with
    | nil =>
      have : fuel + 1 + k = (fuel + k) + 1 := by omega
      rw [this]; rfl
    | cons c cs =>
      have hstep : fuel + 1 + k = (fuel + k) + 1 := by omega
      rw [hstep]
      show scanIncludesAux ((fuel + k) + 1) (c :: cs) = scanIncludesAux (fuel + 1) (c :: cs)
      rw [scanIncludesAux, scanIncludesAux]
      by_cases hp : listHasPfx openTok (c :: cs) = true
      · simp only [hp, if_true, if_pos]
        cases hmc : matchCapture ((c :: cs).drop 11) with
        | none =>
          exact ih cs (by simp at hl; omega) k
        | some pr =>
          cases pr with
          | mk a rest =>
            have h1 : rest.length ≤ ((c :: cs).drop 11).length := matchCapture_length hmc
            have h2 : rest.length ≤ fuel := by
              simp only [List.length_drop, List.length_cons] at h1
              simp only [List.length_cons] at hl
              omega
            show a :: scanIncludesAux (fuel + k) rest = a :: scanIncludesAux fuel rest
            rw [ih rest h2 k]
      · simp only [hp, if_false, Bool.false_eq_true]
        exact ih cs (by simp at hl; omega) k

theorem queueIncludes_sup (p : String) (o : Finset String) :
    ∀ ms wl x, x ∈ wl → x ∈ queueIncludes p o wl ms := by
  intro ms
  induction ms with
  | nil => intro wl x hx; exact hx
  | cons m ms ih =>
    intro wl x hx
    rw [queueIncludes]
    by_cases hc : pyJoin (pyDirname p) m ∈ o ∨ pyJoin (pyDirname p) m ∈ wl
    · simp only [hc, if_pos]; exact ih wl x hx
    · simp only [hc, if_neg, if_false]
      exact ih _ x (List.mem_cons_of_mem _ hx)

theorem queueIncludes_mem (p : String) (o : Finset String) :
    ∀ ms wl x, x ∈ queueIncludes p o wl ms →
      x ∈ wl ∨ ∃ m ∈ ms, x = pyJoin (pyDirname p) m := by
  intro ms
  induction ms with
  | nil => intro wl x hx; exact Or.inl hx
  | cons m ms ih =>
    intro wl x hx
    rw [queueIncludes] at hx
    by_cases hc : pyJoin (pyDirname p) m ∈ o ∨ pyJoin (pyDirname p) m ∈ wl
    · simp only [hc, if_pos] at hx
      rcases ih wl x hx with h | ⟨m', hm', he⟩
      · exact Or.inl h
      · exact Or.inr ⟨m', List.mem_cons_of_mem _ hm', he⟩
    · simp only [hc, if_neg, if_false] at hx
      rcases ih _ x hx with h | ⟨m', hm', he⟩
      · rcases List.mem_cons.mp h with he | h
        · exact Or.inr ⟨m, List.mem_cons_self m ms, he⟩
        · exact Or.inl h
      · exact Or.inr ⟨m', List.mem_cons_of_mem _ hm', he⟩

theorem queueIncludes_length (p : String) (o : Finset String) :
    ∀ ms wl, (queueIncludes p o wl ms).length ≤ wl.length + ms.length := by
  intro ms
  induction ms with
  | nil => intro wl; simp [queueIncludes]
  | cons m ms ih =>
    intro wl
    rw [queueIncludes]
    by_cases hc : pyJoin (pyDirname p) m ∈ o ∨ pyJoin (pyDirname p) m ∈ wl
    · simp only [hc, if_pos]
      have := ih wl
      simp only [List.length_cons]; omega
    · simp only [hc, if_neg, if_false]
      have := ih (pyJoin (pyDirname p) m :: wl)
      simp only [List.length_cons] at this ⊢; omega

theorem queueIncludes_complete (p : String) (o : Finset String) :
    ∀ ms wl m, m ∈ ms →
      pyJoin (pyDirname p) m ∈ o ∨ pyJoin (pyDirname p) m ∈ queueIncludes p o wl ms := by
  intro ms
  induction ms with
  | nil => intro wl m hm; simp at hm
  | cons m' ms ih =>
    intro wl m hm
    rw [queueIncludes]
    rcases List.mem_cons.mp hm with he | hm
    · subst he
      by_cases hc : pyJoin (pyDirname p) m ∈ o ∨ pyJoin (pyDirname p) m ∈ wl
      · simp only [hc, if_pos]
        rcases hc with h | h
        · exact Or.inl h
        · exact Or.inr (queueIncludes_sup p o ms wl _ h)
      · simp only [hc, if_neg, if_false]
        exact Or.inr (queueIncludes_sup p o ms _ _ (List.mem_cons_self _ _))
    · by_cases hc : pyJoin (pyDirname p) m' ∈ o ∨ pyJoin (pyDirname p) m' ∈ wl
      · simp only [hc, if_pos]; exact ih wl m hm
      · simp only [hc, if_neg, if_false]; exact ih _ m hm

theorem queueIncludes_no_requeue (p : String) (o : Finset String) :
    ∀ ms wl x, x ∈ queueIncludes p o wl ms → x ∉ wl → x ∉ o := by
  intro ms
  induction ms with
  | nil => intro wl x hx hnx; exact absurd hx hnx
  | cons m ms ih =>
    intro wl x hx hnx
    rw [queueIncludes] at hx
    by_cases hc : pyJoin (pyDirname p) m ∈ o ∨ pyJoin (pyDirname p) m ∈ wl
    · simp only [hc, if_pos] at hx; exact ih wl x hx hnx
    · simp only [hc, if_neg, if_false] at hx
      by_cases hxw : x ∈ pyJoin (pyDirname p) m :: wl
      · rcases List.mem_cons.mp hxw with he | h
        · subst he; intro hxo; exact hc (Or.inl hxo)
        · exact absurd h hnx
      · exact ih _ x hx hxw

/-! ## Bounds used by the termination measure -/

theorem le_foldr_max : ∀ (l : List Nat) (x : Nat), x ∈ l → x ≤ l.foldr Nat.max 0 := by
  intro l
  induction l with
  | nil => intro x hx; simp at hx
  | cons a as ih =>
    intro x hx
    rcases List.mem_cons.mp hx with he | h
    · subst he; exact Nat.le_max_left _ _
    · exact Nat.le_trans (ih x h) (Nat.le_max_right _ _)

theorem readFile_mem {fs : FS} {p : String} {v : ReadResult} :
    readFile fs p = some v → (p, v) ∈ fs.files := by
  intro h
  unfold readFile at h
  cases hf : fs.files.find? (fun e => e.1 == p) with
  | none => rw [hf] at h; simp at h
  | some e =>
    rw [hf] at h
    simp at h
    have he : e ∈ fs.files := List.mem_of_find?_eq_some hf
    have hp : e.1 = p := by
      have := List.find?_some hf
      simpa using this
    cases e with
    | mk e1 e2 =>
      simp at hp h
      subst hp; subst h; exact he

theorem includeTargets_subset_allTargets {fs : FS} {p t : String} :
    t ∈ includeTargets fs p → t ∈ allTargets fs := by
  intro ht
  unfold includeTargets at ht
  cases hr : readFile fs p with
  | none => rw [hr] at ht; simp at ht
  | some v =>
    cases v with
    | readError e => rw [hr] at ht; simp at ht
    | content c =>
      rw [hr] at ht
      have hmem : (p, ReadResult.content c) ∈ fs.files := readFile_mem hr
      unfold allTargets
      rw [List.mem_toFinset, List.mem_flatten]
      refine ⟨entryTargets (p, ReadResult.content c), List.mem_map_of_mem entryTargets hmem, ?_⟩
      simpa [entryTargets] using ht

theorem includeTargets_length_le (fs : FS) (p : String) :
    (includeTargets fs p).length ≤ maxBranch fs := by
  unfold includeTargets
  cases hr : readFile fs p with
  | none => simp
  | some v =>
    cases v with
    | readError e => simp
    | content c =>
      have hmem : (p, ReadResult.content c) ∈ fs.files := readFile_mem hr
      have : (entryTargets (p, ReadResult.content c)).length ∈
          fs.files.map (fun e => (entryTargets e).length) :=
        List.mem_map_of_mem _ hmem
      have hle := le_foldr_max _ _ this
      simpa [entryTargets, maxBranch] using hle

/-! ## The termination measure decreases -/

theorem measure_skip (fs : FS) (p : String) (tl : List String) (o : Finset String) :
    auxMeasure fs tl o < auxMeasure fs (p :: tl) o := by
  unfold auxMeasure
  have hsub : (tl.toFinset ∪ allTargets fs) \ o ⊆ ((p :: tl).toFinset ∪ allTargets fs) \ o := by
    apply Finset.sdiff_subset_sdiff _ Finset.Subset.rfl
    apply Finset.union_subset_union _ Finset.Subset.rfl
    rw [List.toFinset_cons]
    exact Finset.subset_insert _ _
  have hcard := Finset.card_le_card hsub
  have hmul := Nat.mul_le_mul_left (maxBranch fs + 2) hcard
  simp only [List.length_cons]
  omega

theorem measure_process (fs : FS) (p : String) (o : Finset String) (tl wl' : List String)
    (hp : p ∉ o)
    (hsub : ∀ x ∈ wl', x ∈ tl ∨ x ∈ includeTargets fs p)
    (hlen : wl'.length ≤ tl.length + maxBranch fs) :
    auxMeasure fs wl' (insert p o) < auxMeasure fs (p :: tl) o := by
  unfold auxMeasure
  have hkey : (wl'.toFinset ∪ allTargets fs) \ insert p o ⊆
      (((p :: tl).toFinset ∪ allTargets fs) \ o).erase p := by
    intro x hx
    rw [Finset.mem_sdiff] at hx
    obtain ⟨hxs, hxo⟩ := hx
    rw [Finset.mem_insert] at hxo
    push_neg at hxo
    obtain ⟨hxp, hxo⟩ := hxo
    rw [Finset.mem_erase, Finset.mem_sdiff]
    refine ⟨hxp, ?_, hxo⟩
    rw [Finset.mem_union] at hxs ⊢
    rcases hxs with hxw | hxa
    · rw [List.mem_toFinset] at hxw
      rcases hsub x hxw with h | h
      · left; rw [List.toFinset_cons, Finset.mem_insert, List.mem_toFinset]; exact Or.inr h
      · right; exact includeTargets_subset_allTargets h
    · right; exact hxa
  have hpmem : p ∈ ((p :: tl).toFinset ∪ allTargets fs) \ o := by
    rw [Finset.mem_sdiff, Finset.mem_union, List.toFinset_cons]
    exact ⟨Or.inl (Finset.mem_insert_self _ _), hp⟩
  have hcard1 := Finset.card_le_card hkey
  have hcard2 := Finset.card_erase_of_mem hpmem
  have hpos : 1 ≤ (((p :: tl).toFinset ∪ allTargets fs) \ o).card :=
    Finset.card_pos.mpr ⟨p, hpmem⟩
  have hlt : ((wl'.toFinset ∪ allTargets fs) \ insert p o).card + 1 ≤
      (((p :: tl).toFinset ∪ allTargets fs) \ o).card := by omega
  have hmul := Nat.mul_le_mul_left (maxBranch fs + 2) hlt
  rw [Nat.mul_add, Nat.mul_one] at hmul
  simp only [List.length_cons]
  omega

/-! ## Termination and correctness of the worklist loop -/

theorem findIncludesAux_nil (fs : FS) (fuel : Nat) (o r d : Finset String) (errs : List String) :
    findIncludesAux fs fuel [] o r d errs = ⟨o, r, d, errs⟩ := by
  cases fuel with
  | zero => rfl
  | succ n => rfl

/-- Any fuel at least `auxMeasure` computes the loop's fixed point: the
traversal terminates. -/
theorem findIncludesAux_stable (fs : FS) :
    ∀ fuel wl o r d errs, auxMeasure fs wl o ≤ fuel → ∀ k,
      findIncludesAux fs (fuel + k) wl o r d errs = findIncludesAux fs fuel wl o r d errs := by
  intro fuel
  induction fuel with
  | zero =>
    intro wl o r d errs hm k
    have hwl : wl = [] := by
      cases wl with
      | nil => rfl
      | cons p tl => unfold auxMeasure at hm; simp at hm
    subst hwl
    rw [findIncludesAux_nil, findIncludesAux_nil]
  | succ fuel ih =>
    intro wl o r d errs hm k
    cases wl with
    | nil => rw [findIncludesAux_nil, findIncludesAux_nil]
    | cons p tl =>
      have hstep : fuel + 1 + k = (fuel + k) + 1 := by omega
      rw [hstep]
      rw [findIncludesAux, findIncludesAux]
      by_cases hpo : p ∈ o
      · simp only [hpo, if_pos]
        have hlt := measure_skip fs p tl o
        exact ih tl o r d errs (by omega) k
      · simp only [hpo, if_neg, if_false]
        cases hr : readFile fs p with
        | none =>
          have hlt := measure_process fs p o tl tl hpo
            (fun x hx => Or.inl hx) (Nat.le_add_right _ _)
          exact ih tl _ _ _ _ (by omega) k
        | some v =>
          cases v with
          | readError e =>
            have hlt := measure_process fs p o tl tl hpo
              (fun x hx => Or.inl hx) (Nat.le_add_right _ _)
            exact ih tl _ _ _ _ (by omega) k
          | content c =>
            have hsub : ∀ x ∈ queueIncludes p (insert p o) tl (extractIncludes c),
                x ∈ tl ∨ x ∈ includeTargets fs p := by
              intro x hx
              rcases queueIncludes_mem p (insert p o) (extractIncludes c) tl x hx with
                h | ⟨m, hm, he⟩
              · exact Or.inl h
              · right
                unfold includeTargets
                rw [hr]
                subst he
                exact List.mem_map_of_mem _ hm
            have hlen : (queueIncludes p (insert p o) tl (extractIncludes c)).length ≤
                tl.length + maxBranch fs := by
              have h1 := queueIncludes_length p (insert p o) (extractIncludes c) tl
              have h2 : (extractIncludes c).length ≤ maxBranch fs := by
                have := includeTargets_length_le fs p
                unfold includeTargets at this
                rw [hr] at this
                simpa using this
              omega
            have hlt := measure_process fs p o tl _ hpo hsub hlen
            exact ih _ _ _ _ _ (by omega) k

/-- The loop only ever grows its accumulators. -/
theorem findIncludesAux_mono (fs : FS) :
    ∀ fuel wl o r d errs,
      o ⊆ (findIncludesAux fs fuel wl o r d errs).original ∧
      r ⊆ (findIncludesAux fs fuel wl o r d errs).resolved ∧
      d ⊆ (findIncludesAux fs fuel wl o r d errs).dirs ∧
      (∀ m ∈ errs, m ∈ (findIncludesAux fs fuel wl o r d errs).errors) := by
  intro fuel
  induction fuel with
  | zero =>
    intro wl o r d errs
    exact ⟨Finset.Subset.rfl, Finset.Subset.rfl, Finset.Subset.rfl, fun m hm => hm⟩
  | succ fuel ih =>
    intro wl o r d errs
    cases wl with
    | nil =>
      rw [findIncludesAux_nil]
      exact ⟨Finset.Subset.rfl, Finset.Subset.rfl, Finset.Subset.rfl, fun m hm => hm⟩
    | cons p tl =>
      rw [findIncludesAux]
      by_cases hpo : p ∈ o
      · simp only [hpo, if_pos]
        exact ih tl o r d errs
      · simp only [hpo, if_neg, if_false]
        cases hr : readFile fs p with
        | none =>
          obtain ⟨h1, h2, h3, h4⟩ := ih tl (insert p o) (insert (fs.resolve p) r)
            (insert (fs.parent (fs.resolve p)) d) (errs ++ ["File not found: " ++ p])
          refine ⟨Finset.Subset.trans (Finset.subset_insert _ _) h1,
            Finset.Subset.trans (Finset.subset_insert _ _) h2,
            Finset.Subset.trans (Finset.subset_insert _ _) h3, ?_⟩
          intro m hm
          exact h4 m (List.mem_append_left _ hm)
        | some v =>
          cases v with
          | readError e =>
            obtain ⟨h1, h2, h3, h4⟩ := ih tl (insert p o) (insert (fs.resolve p) r)
              (insert (fs.parent (fs.resolve p)) d)
              (errs ++ ["Error processing file " ++ p ++ ": " ++ e])
            refine ⟨Finset.Subset.trans (Finset.subset_insert _ _) h1,
              Finset.Subset.trans (Finset.subset_insert _ _) h2,
              Finset.Subset.trans (Finset.subset_insert _ _) h3, ?_⟩
            intro m hm
            exact h4 m (List.mem_append_left _ hm)
          | content c =>
            obtain ⟨h1, h2, h3, h4⟩ := ih (queueIncludes p (insert p o) tl (extractIncludes c))
              (insert p o) (insert (fs.resolve p) r) (insert (fs.parent (fs.resolve p)) d) errs
            exact ⟨Finset.Subset.trans (Finset.subset_insert _ _) h1,
              Finset.Subset.trans (Finset.subset_insert _ _) h2,
              Finset.Subset.trans (Finset.subset_insert _ _) h3, h4⟩

/-- In a set closed under include edges and containing the root, everything
reachable from the root is present. -/
theorem reach_subset_of_closed {fs : FS} {root : String} {o : Finset String}
    (hroot : root ∈ o)
    (hclosed : ∀ q, q ∈ o → ∀ t, t ∈ includeTargets fs q → t ∈ o) :
    ∀ q, Reach fs root q → q ∈ o := by
  intro q h
  induction h with
  | refl => exact hroot
  | step hp ht ih => exact hclosed _ ih _ ht

/-- Worklist invariant proof: given enough fuel, the loop's `original` set
is exactly the reachable set, `resolved` and `dirs` are its images, and a
diagnostic was recorded for every unreadable processed file. -/
theorem findIncludesAux_spec (fs : FS) (root : String) :
    ∀ fuel wl o r d errs,
      auxMeasure fs wl o ≤ fuel →
      (root ∈ o ∨ root ∈ wl) →
      (∀ q, q ∈ o → Reach fs root q) →
      (∀ q, q ∈ wl → Reach fs root q) →
      (∀ q, q ∈ o → ∀ t, t ∈ includeTargets fs q → t ∈ o ∨ t ∈ wl) →
      r = o.image fs.resolve →
      d = o.image (fun q => fs.parent (fs.resolve q)) →
      (∀ q, q ∈ o → readSuccess fs q = none → errObj fs q ∈ errs) →
      ((∀ q, q ∈ (findIncludesAux fs fuel wl o r d errs).original ↔ Reach fs root q) ∧
       (findIncludesAux fs fuel wl o r d errs).resolved =
         (findIncludesAux fs fuel wl o r d errs).original.image fs.resolve ∧
       (findIncludesAux fs fuel wl o r d errs).dirs =
         (findIncludesAux fs fuel wl o r d errs).original.image
           (fun q => fs.parent (fs.resolve q)) ∧
       (∀ q, q ∈ (findIncludesAux fs fuel wl o r d errs).original →
          readSuccess fs q = none →
          errObj fs q ∈ (findIncludesAux fs fuel wl o r d errs).errors)) := by
  intro fuel
  induction fuel with
  | zero =>
    intro wl o r d errs hm hroot hso hsw hcl hr hd herr
    have hwl : wl = [] := by
      cases wl with
      | nil => rfl
      | cons p tl => unfold auxMeasure at hm; simp at hm
    subst hwl
    rw [findIncludesAux_nil]
    have hroot' : root ∈ o := by
      rcases hroot with h | h
      · exact h
      · simp at h
    have hcl' : ∀ q, q ∈ o → ∀ t, t ∈ includeTargets fs q → t ∈ o := by
      intro q hq t ht
      rcases hcl q hq t ht with h | h
      · exact h
      · simp at h
    exact ⟨fun q => ⟨hso q, reach_subset_of_closed hroot' hcl' q⟩, hr, hd, herr⟩
  | succ fuel ih =>
    intro wl o r d errs hm hroot hso hsw hcl hr hd herr
    cases wl with
    | nil =>
      rw [findIncludesAux_nil]
      have hroot' : root ∈ o := by
        rcases hroot with h | h
        · exact h
        · simp at h
      have hcl' : ∀ q, q ∈ o → ∀ t, t ∈ includeTargets fs q → t ∈ o := by
        intro q hq t ht
        rcases hcl q hq t ht with h | h
        · exact h
        · simp at h
      exact ⟨fun q => ⟨hso q, reach_subset_of_closed hroot' hcl' q⟩, hr, hd, herr⟩
    | cons p tl =>
      rw [findIncludesAux]
      by_cases hpo : p ∈ o
      · simp only [hpo, if_pos]
        have hlt := measure_skip fs p tl o
        refine ih tl o r d errs (by omega) ?_ hso ?_ ?_ hr hd herr
        · rcases hroot with h | h
          · exact Or.inl h
          · rcases List.mem_cons.mp h with he | h
            · subst he; exact Or.inl hpo
            · exact Or.inr h
        · intro q hq; exact hsw q (List.mem_cons_of_mem _ hq)
        · intro q hq t ht
          rcases hcl q hq t ht with h | h
          · exact Or.inl h
          · rcases List.mem_cons.mp h with he | h
            · subst he; exact Or.inl hpo
            · exact Or.inr h
      · simp only [hpo, if_neg, if_false]
        have hreachp : Reach fs root p := hsw p (List.mem_cons_self _ _)
        cases hrf : readFile fs p with
        | none =>
          have htp : includeTargets fs p = [] := by
            unfold includeTargets; rw [hrf]
          have hlt := measure_process fs p o tl tl hpo
            (fun x hx => Or.inl hx) (Nat.le_add_right _ _)
          refine ih tl (insert p o) _ _ _ (by omega) ?_ ?_ ?_ ?_ ?_ ?_ ?_
          · rcases hroot with h | h
            · exact Or.inl (Finset.mem_insert_of_mem h)
            · rcases List.mem_cons.mp h with he | h
              · subst he; exact Or.inl (Finset.mem_insert_self _ _)
              · exact Or.inr h
          · intro q hq
            rcases Finset.mem_insert.mp hq with he | h
            · subst he; exact hreachp
            · exact hso q h
          · intro q hq; exact hsw q (List.mem_cons_of_mem _ hq)
          · intro q hq t ht
            rcases Finset.mem_insert.mp hq with he | h
            · subst he; rw [htp] at ht; simp at ht
            · rcases hcl q h t ht with h' | h'
              · exact Or.inl (Finset.mem_insert_of_mem h')
              · rcases List.mem_cons.mp h' with he | h'
                · subst he; exact Or.inl (Finset.mem_insert_self _ _)
                · exact Or.inr h'
          · rw [hr, Finset.image_insert]
          · rw [hd, Finset.image_insert]
          · intro q hq hrs
            rcases Finset.mem_insert.mp hq with he | h
            · subst he
              apply List.mem_append_right
              unfold errObj
              rw [hrf]
              exact List.mem_singleton.mpr rfl
            · exact List.mem_append_left _ (herr q h hrs)
        | some v =>
          cases v with
          | readError e =>
            have htp : includeTargets fs p = [] := by
              unfold includeTargets; rw [hrf]
            have hlt := measure_process fs p o tl tl hpo
              (fun x hx => Or.inl hx) (Nat.le_add_right _ _)
            refine ih tl (insert p o) _ _ _ (by omega) ?_ ?_ ?_ ?_ ?_ ?_ ?_
            · rcases hroot with h | h
              · exact Or.inl (Finset.mem_insert_of_mem h)
              · rcases List.mem_cons.mp h with he | h
                · subst he; exact Or.inl (Finset.mem_insert_self _ _)
                · exact Or.inr h
            · intro q hq
              rcases Finset.mem_insert.mp hq with he | h
              · subst he; exact hreachp
              · exact hso q h
            · intro q hq; exact hsw q (List.mem_cons_of_mem _ hq)
            · intro q hq t ht
              rcases Finset.mem_insert.mp hq with he | h
              · subst he; rw [htp] at ht; simp at ht
              · rcases hcl q h t ht with h' | h'
                · exact Or.inl (Finset.mem_insert_of_mem h')
                · rcases List.mem_cons.mp h' with he | h'
                  · subst he; exact Or.inl (Finset.mem_insert_self _ _)
                  · exact Or.inr h'
            · rw [hr, Finset.image_insert]
            · rw [hd, Finset.image_insert]
            · intro q hq hrs
              rcases Finset.mem_insert.mp hq with he | h
              · subst he
                apply List.mem_append_right
                unfold errObj
                rw [hrf]
                exact List.mem_singleton.mpr rfl
              · exact List.mem_append_left _ (herr q h hrs)
          | content c =>
            have htp : includeTargets fs p =
                (extractIncludes c).map (fun m => pyJoin (pyDirname p) m) := by
              unfold includeTargets; rw [hrf]
            have hsub : ∀ x ∈ queueIncludes p (insert p o) tl (extractIncludes c),
                x ∈ tl ∨ x ∈ includeTargets fs p := by
              intro x hx
              rcases queueIncludes_mem p (insert p o) (extractIncludes c) tl x hx with
                h | ⟨m, hmm, he⟩
              · exact Or.inl h
              · right; rw [htp]; subst he; exact List.mem_map_of_mem _ hmm
            have hlen : (queueIncludes p (insert p o) tl (extractIncludes c)).length ≤
                tl.length + maxBranch fs := by
              have h1 := queueIncludes_length p (insert p o) (extractIncludes c) tl
              have h2 : (extractIncludes c).length ≤ maxBranch fs := by
                have := includeTargets_length_le fs p
                rw [htp] at this
                simpa using this
              omega
            have hlt := measure_process fs p o tl _ hpo hsub hlen
            refine ih (queueIncludes p (insert p o) tl (extractIncludes c))
              (insert p o) _ _ _ (by omega) ?_ ?_ ?_ ?_ ?_ ?_ ?_
            · rcases hroot with h | h
              · exact Or.inl (Finset.mem_insert_of_mem h)
              · rcases List.mem_cons.mp h with he | h
                · subst he; exact Or.inl (Finset.mem_insert_self _ _)
                · exact Or.inr (queueIncludes_sup p (insert p o) (extractIncludes c) tl root h)
            · intro q hq
              rcases Finset.mem_insert.mp hq with he | h
              · subst he; exact hreachp
              · exact hso q h
            · intro q hq
              rcases hsub q hq with h | h
              · exact hsw q (List.mem_cons_of_mem _ h)
              · exact Reach.step hreachp h
            · intro q hq t ht
              rcases Finset.mem_insert.mp hq with he | h
              · subst he
                rw [htp] at ht
                rcases List.mem_map.mp ht with ⟨m, hmm, he⟩
                subst he
                rcases queueIncludes_complete q (insert q o) (extractIncludes c) tl m hmm with
                  h' | h'
                · exact Or.inl h'
                · exact Or.inr h'
              · rcases hcl q h t ht with h' | h'
                · exact Or.inl (Finset.mem_insert_of_mem h')
                · rcases List.mem_cons.mp h' with he | h'
                  · subst he; exact Or.inl (Finset.mem_insert_self _ _)
                  · exact Or.inr (queueIncludes_sup p (insert p o) (extractIncludes c) tl t h')
            · rw [hr, Finset.image_insert]
            · rw [hd, Finset.image_insert]
            · intro q hq hrs
              rcases Finset.mem_insert.mp hq with he | h
              · subst he
                unfold readSuccess at hrs
                rw [hrf] at hrs
                simp at hrs
              · exact herr q h hrs

/-- `find_includes` as a set: `original` is exactly the reachable set,
`resolved` and `dirs` are its images under resolution, and every
unreadable reachable file left a diagnostic. -/
theorem find_includes_spec (fs : FS) (root : String) :
    (∀ q, q ∈ (find_includes fs root).original ↔ Reach fs root q) ∧
    (find_includes fs root).resolved = (find_includes fs root).original.image fs.resolve ∧
    (find_includes fs root).dirs =
      (find_includes fs root).original.image (fun q => fs.parent (fs.resolve q)) ∧
    (∀ q, q ∈ (find_includes fs root).original → readSuccess fs q = none →
      errObj fs q ∈ (find_includes fs root).errors) := by
  apply findIncludesAux_spec fs root (suffFuel fs root) [root] ∅ ∅ ∅ []
  · exact Nat.le_refl _
  · exact Or.inr (List.mem_cons_self _ _)
  · intro q hq; simp at hq
  · intro q hq
    rcases List.mem_cons.mp hq with he | h
    · subst he; exact Reach.refl
    · simp at h
  · intro q hq; simp at hq
  · simp
  · simp
  · intro q hq; simp at hq

/-- The fuel given to `find_includes` is at a fixed point: more fuel does
not change the result (the Python loop terminates with this very result). -/
theorem find_includes_terminates (fs : FS) (root : String) :
    ∀ k, findIncludesAux fs (suffFuel fs root + k) [root] ∅ ∅ ∅ [] = find_includes fs root := by
  intro k
  exact findIncludesAux_stable fs (suffFuel fs root) [root] ∅ ∅ ∅ [] (Nat.le_refl _) k

/-! ## The file watcher (`FileWatcher`)

Python stores `original_filenames` as strings but compares the event's
`Path` object against them; since `Path.resolve` is deterministic, a match
by original spelling always entails the match of the resolved forms that
the code also tests, so on states whose `resolved_filenames` is the
resolved image of `original_filenames` (`WFState`, established by
`FileWatcher.__init__` and preserved by refresh) membership of either
spelling is modelled faithfully by string membership. -/

theorem FileWatcher_init_wf (fs : FS) (main_file : String) :
    WFState fs (FileWatcher_init fs main_file) := by
  constructor
  · rfl
  · exact (find_includes_spec fs main_file).2.1

theorem refreshWatch_wf (fs : FS) (w : WatcherState) (h : WFState fs w) :
    WFState fs (refreshWatch fs w) := by
  constructor
  · exact h.1
  · exact (find_includes_spec fs w.main_file_path).2.1

/-! ## The per-file supervision loop of `run_app`

`run_marp` spawns the renderer with `subprocess.Popen`; a missing binary
raises there.  `run_app` wraps each `run_marp` call in
`try/except Exception/finally`: the except arm prints and falls through to
the next input file, and the finally arm, in preview (and not pack) mode,
removes the output file that a preview run would have produced — a file
that does not exist when the renderer never started, so that `os.remove`
itself raises and aborts the interpreter with a non-zero status. -/

/-! ## The claims -/

/-- Claim C1: for every root file whose include graph is acyclic,
`find_includes` terminates (its fuel is at a fixed point) and the returned
canonical path set equals the set of filesystem-resolved forms of exactly
the files in the transitive closure of the include relation starting from
the root. -/
theorem claim_C1_acyclic_terminates_closure (fs : FS) (root : String)
    (hacyc : ∀ q, Reach fs root q → ¬ TransStep fs q q) :
    (∀ k, findIncludesAux fs (suffFuel fs root + k) [root] ∅ ∅ ∅ [] = find_includes fs root) ∧
    (∀ x, x ∈ (find_includes fs root).resolved ↔
      ∃ q, Reach fs root q ∧ x = fs.resolve q) := by
  obtain ⟨horig, hres, _, _⟩ := find_includes_spec fs root
  refine ⟨find_includes_terminates fs root, ?_⟩
  intro x
  rw [hres, Finset.mem_image]
  constructor
  · rintro ⟨q, hq, he⟩
    exact ⟨q, (horig q).mp hq, he.symm⟩
  · rintro ⟨q, hq, he⟩
    exact ⟨q, (horig q).mpr hq, he.symm⟩

theorem claim_C1_witness :
    "r.md" ∈ (find_includes fsEmpty "r.md").resolved :=
  ((claim_C1_acyclic_terminates_closure fsEmpty "r.md"
      (by
        intro q _ hts
        cases hts with
        | single h => simp [includeTargets, readFile, fsEmpty] at h
        | tail h1 h2 => simp [includeTargets, readFile, fsEmpty] at h2)).2
    "r.md").mpr ⟨"r.md", Reach.refl, rfl⟩

/-- Claim C2: for every include graph containing a cycle (a reachable `a`
includes `b` which includes `a` back), `find_includes` still terminates,
both cycle members appear (exactly once, the output being a set) in the
canonical output, and a path already visited in `original_files` is never
re-queued onto the worklist. -/
theorem claim_C2_cycle_terminates (fs : FS) (root a b : String)
    (hra : Reach fs root a)
    (hab : b ∈ includeTargets fs a)
    (hba : a ∈ includeTargets fs b) :
    (∀ k, findIncludesAux fs (suffFuel fs root + k) [root] ∅ ∅ ∅ [] = find_includes fs root) ∧
    fs.resolve a ∈ (find_includes fs root).resolved ∧
    fs.resolve b ∈ (find_includes fs root).resolved ∧
    (∀ p o wl ms x, x ∈ queueIncludes p o wl ms → x ∉ wl → x ∉ o) := by
  obtain ⟨horig, hres, _, _⟩ := find_includes_spec fs root
  refine ⟨find_includes_terminates fs root, ?_, ?_, ?_⟩
  · rw [hres]
    exact Finset.mem_image_of_mem _ ((horig a).mpr hra)
  · rw [hres]
    exact Finset.mem_image_of_mem _ ((horig b).mpr (Reach.step hra hab))
  · intro p o wl ms x hx hnx
    exact queueIncludes_no_requeue p o ms wl x hx hnx

theorem claim_C2_witness :
    "a.md" ∈ (find_includes fsCycle "a.md").resolved ∧
    "b.md" ∈ (find_includes fsCycle "a.md").resolved :=
  ⟨(claim_C2_cycle_terminates fsCycle "a.md" "a.md" "b.md"
      Reach.refl (by decide) (by decide)).2.1,
   (claim_C2_cycle_terminates fsCycle "a.md" "a.md" "b.md"
      Reach.refl (by decide) (by decide)).2.2.1⟩

/-- Claim C7: a worklist entry that cannot be read (missing or any other
read error) is recorded in the printed diagnostics and the traversal
continues: every reachable file is still in the returned original set (the
fuelled loop is total, so nothing is raised or aborted). -/
theorem claim_C7_unreadable_continues (fs : FS) (root p : String)
    (hreach : Reach fs root p) (hbad : readSuccess fs p = none) :
    errObj fs p ∈ (find_includes fs root).errors ∧
    (∀ q, Reach fs root q → q ∈ (find_includes fs root).original) := by
  obtain ⟨horig, _, _, herr⟩ := find_includes_spec fs root
  exact ⟨herr p ((horig p).mpr hreach) hbad, fun q hq => (horig q).mpr hq⟩

theorem claim_C7_witness :
    "File not found: missing.md" ∈ (find_includes fsMissing "deck.md").errors ∧
    "ok.md" ∈ (find_includes fsMissing "deck.md").original :=
  ⟨(claim_C7_unreadable_continues fsMissing "deck.md" "missing.md"
      (Reach.step Reach.refl (by decide)) (by decide)).1,
   (claim_C7_unreadable_continues fsMissing "deck.md" "missing.md"
      (Reach.step Reach.refl (by decide)) (by decide)).2 "ok.md"
     (Reach.step Reach.refl (by decide))⟩

/-- Claim C8: every path queued while processing directives found in the
content of a file `F` is `os.path.join(os.path.dirname(F), m)` for some
directive argument `m` (resolution is relative to `F`'s directory, not the
working directory), and conversely every directive's joined path ends up
queued unless it is already visited or pending. -/
theorem claim_C8_relative_resolution (F content : String) (o : Finset String)
    (wl : List String) :
    (∀ x, x ∈ queueIncludes F o wl (extractIncludes content) →
      x ∈ wl ∨ ∃ m ∈ extractIncludes content, x = pyJoin (pyDirname F) m) ∧
    (∀ m ∈ extractIncludes content,
      pyJoin (pyDirname F) m ∈ o ∨
      pyJoin (pyDirname F) m ∈ queueIncludes F o wl (extractIncludes content)) :=
  ⟨fun x hx => queueIncludes_mem F o (extractIncludes content) wl x hx,
   fun m hm => queueIncludes_complete F o (extractIncludes content) wl m hm⟩

theorem claim_C8_witness :
    pyJoin (pyDirname "slides/a.md") "b.md" ∈
      queueIncludes "slides/a.md" {"slides/a.md"} [] (extractIncludes "!!!include(b.md)!!!") := by
  have h := (claim_C8_relative_resolution "slides/a.md" "!!!include(b.md)!!!"
    {"slides/a.md"} []).2 "b.md" (by decide)
  rcases h with h | h
  · exact absurd h (by decide)
  · exact h

/-- Claim C9: a directory event, or any event whose source path ends in
`.swp`, is dropped immediately: the watcher state is unchanged and no
touch is performed. -/
theorem claim_C9_swp_and_directory_ignored (fs : FS) (w : WatcherState) (e : FsEvent)
    (h : e.is_directory = true ∨ endsWithSwp e.src_path = true) :
    on_any_event fs w e = (w, []) := by
  unfold on_any_event
  have hc : (e.is_directory || endsWithSwp e.src_path) = true := by
    rcases h with h | h
    · rw [h]; rfl
    · rw [h, Bool.or_true]
  rw [if_pos hc]

theorem claim_C9_witness :
    on_any_event fsDeck wDeck ⟨"any/dir/foo.md.swp", false⟩ = (wDeck, []) :=
  claim_C9_swp_and_directory_ignored fsDeck wDeck ⟨"any/dir/foo.md.swp", false⟩
    (Or.inr (by decide))

/-- Claim C10: for every input path, readable or not, the outputs of
`find_includes` contain the root itself: the path in the original set, its
resolved form in the canonical set, and the parent of that resolved form in
the watch-directory set. -/
theorem claim_C10_outputs_contain_root (fs : FS) (p : String) :
    p ∈ (find_includes fs p).original ∧
    fs.resolve p ∈ (find_includes fs p).resolved ∧
    fs.parent (fs.resolve p) ∈ (find_includes fs p).dirs := by
  obtain ⟨horig, hres, hdirs, _⟩ := find_includes_spec fs p
  have hp : p ∈ (find_includes fs p).original := (horig p).mpr Reach.refl
  refine ⟨hp, ?_, ?_⟩
  · rw [hres]; exact Finset.mem_image_of_mem _ hp
  · rw [hdirs]; exact Finset.mem_image_of_mem _ hp

/-- Claim C3 as stated is false on the code: an event for a watched
non-root file whose name ends in `.swp` is filtered before the refresh
action.  Concretely, `deck.md` includes `notes.swp`; the event for
`notes.swp` is non-directory, matches the non-root watch-set entry
`notes.swp` by original form (and its canonical form differs from the
root's), yet the handler performs no touch. -/
theorem claim_C3_counterexample :
    WFState fsSwpInclude wSwp ∧
    (⟨"notes.swp", false⟩ : FsEvent).is_directory = false ∧
    "notes.swp" ∈ wSwp.original_filenames ∧
    fsSwpInclude.resolve "notes.swp" ≠ wSwp.main_file_resolved ∧
    (⟨"notes.swp", false⟩ : FsEvent).src_path = "notes.swp" ∧
    (on_any_event fsSwpInclude wSwp ⟨"notes.swp", false⟩).2 ≠ [wSwp.main_file_path] := by
  refine ⟨by decide, rfl, by decide, by decide, rfl, by decide⟩

/-- Claim C3 (amended): for every non-directory event whose path does not
end in `.swp` and matches, by original or canonical form, a watch-set
entry that is not the root (its canonical form differs from the root's),
the handler invokes the refresh action: it performs exactly one touch, of
the root document, setting its modification time to now. -/
theorem claim_C3_amended_watched_triggers_touch (fs : FS) (w : WatcherState) (e : FsEvent)
    (x : String)
    (hwf : WFState fs w)
    (hdir : e.is_directory = false)
    (hswp : endsWithSwp e.src_path = false)
    (hx : x ∈ w.original_filenames)
    (hnonroot : fs.resolve x ≠ w.main_file_resolved)
    (hmatch : e.src_path = x ∨ fs.resolve e.src_path = fs.resolve x) :
    (on_any_event fs w e).2 = [w.main_file_path] ∧
    (∀ now m, applyTouches now m (on_any_event fs w e).2 w.main_file_path = now) := by
  obtain ⟨hwf1, hwf2⟩ := hwf
  have hres_ne : fs.resolve e.src_path ≠ w.main_file_resolved := by
    rcases hmatch with h | h
    · rw [h]; exact hnonroot
    · rw [h]; exact hnonroot
  have hsrc_ne : e.src_path ≠ w.main_file_path := by
    intro hh
    exact hres_ne (by rw [hh, ← hwf1])
  have hwatched : e.src_path ∈ w.original_filenames ∨
      fs.resolve e.src_path ∈ w.resolved_filenames := by
    rcases hmatch with h | h
    · left; rw [h]; exact hx
    · right; rw [hwf2, h]; exact Finset.mem_image_of_mem _ hx
  have hout : on_any_event fs w e = (w, [w.main_file_path]) := by
    unfold on_any_event
    have hc : (e.is_directory || endsWithSwp e.src_path) = false := by
      rw [hdir, hswp]; rfl
    rw [if_neg (by rw [hc]; exact Bool.false_ne_true)]
    simp only
    have hnr : ¬(e.src_path = w.main_file_path ∨
        fs.resolve e.src_path = w.main_file_resolved) := by
      intro hor
      rcases hor with h | h
      · exact hsrc_ne h
      · exact hres_ne h
    rw [if_neg hnr]
    have hns : ¬((¬(e.src_path ∈ w.original_filenames ∨
        fs.resolve e.src_path ∈ w.resolved_filenames)) ∨
        fs.resolve e.src_path = w.main_file_resolved) := by
      intro hor
      rcases hor with h | h
      · exact h hwatched
      · exact hres_ne h
    rw [if_neg hns]
  rw [hout]
  refine ⟨rfl, ?_⟩
  intro now m
  unfold applyTouches touchFile
  simp

theorem claim_C3_witness :
    (on_any_event fsDeck wDeck ⟨"slides/b.md", false⟩).2 = ["deck.md"] ∧
    applyTouches 7 (fun _ => 0) (on_any_event fsDeck wDeck ⟨"slides/b.md", false⟩).2
      "deck.md" = 7 := by
  have h := claim_C3_amended_watched_triggers_touch fsDeck wDeck ⟨"slides/b.md", false⟩
    "slides/b.md" (by decide) rfl (by decide) (by decide) (by decide) (Or.inl rfl)
  exact ⟨h.1, h.2 7 (fun _ => 0)⟩

/-- Claim C4 as stated is false on the code: an event whose path equals the
root's path is filtered before the watch-set recomputation when that path
ends in `.swp`.  Concretely, the watcher was initialised while `deck.swp`
included `old.md`; by event time the filesystem has changed, so a
recomputation would shrink the tables, but the handler leaves the stale
state untouched. -/
theorem claim_C4_counterexample :
    WFState fsEmpty wStale ∧
    (∀ p, fsEmpty.resolve (fsEmpty.resolve p) = fsEmpty.resolve p) ∧
    (⟨"deck.swp", false⟩ : FsEvent).is_directory = false ∧
    (⟨"deck.swp", false⟩ : FsEvent).src_path = wStale.main_file_path ∧
    on_any_event fsEmpty wStale ⟨"deck.swp", false⟩ ≠ (refreshWatch fsEmpty wStale, []) := by
  refine ⟨by decide, fun p => rfl, rfl, by decide, by decide⟩

/-- Claim C4 (amended): for every non-directory event whose path does not
end in `.swp` and whose original or canonical form equals the root
document's original or canonical path (resolution being idempotent, as
`Path.resolve` is), the handler recomputes the watch set by re-running
include resolution and replaces the membership tables, but performs no
touch: the root's modification time is unchanged. -/
theorem claim_C4_amended_root_event_recomputes (fs : FS) (w : WatcherState) (e : FsEvent)
    (hwf : WFState fs w)
    (hid : ∀ p, fs.resolve (fs.resolve p) = fs.resolve p)
    (hdir : e.is_directory = false)
    (hswp : endsWithSwp e.src_path = false)
    (hmatch : e.src_path = w.main_file_path ∨ e.src_path = w.main_file_resolved ∨
      fs.resolve e.src_path = w.main_file_path ∨
      fs.resolve e.src_path = w.main_file_resolved) :
    on_any_event fs w e = (refreshWatch fs w, []) ∧
    (∀ now m, applyTouches now m (on_any_event fs w e).2 = m) := by
  obtain ⟨hwf1, hwf2⟩ := hwf
  have hkey : e.src_path = w.main_file_path ∨
      fs.resolve e.src_path = w.main_file_resolved := by
    rcases hmatch with h | h | h | h
    · exact Or.inl h
    · right; rw [h, hwf1, hid]
    · right
      have h2 : fs.resolve w.main_file_path = w.main_file_path := by
        rw [← h, hid]
      rw [h, hwf1]
      exact h2.symm
    · exact Or.inr h
  have hres2 : fs.resolve e.src_path = w.main_file_resolved := by
    rcases hkey with h | h
    · rw [h, ← hwf1]
    · exact h
  have hout : on_any_event fs w e = (refreshWatch fs w, []) := by
    unfold on_any_event
    have hc : (e.is_directory || endsWithSwp e.src_path) = false := by
      rw [hdir, hswp]; rfl
    rw [if_neg (by rw [hc]; exact Bool.false_ne_true)]
    simp only
    have hyes : e.src_path = w.main_file_path ∨
        fs.resolve e.src_path = w.main_file_resolved := hkey
    rw [if_pos hyes]
    have houter : (¬(e.src_path ∈ (refreshWatch fs w).original_filenames ∨
        fs.resolve e.src_path ∈ (refreshWatch fs w).resolved_filenames)) ∨
        fs.resolve e.src_path = w.main_file_resolved := Or.inr hres2
    rw [if_pos houter]
  rw [hout]
  exact ⟨rfl, fun now m => rfl⟩

theorem claim_C4_witness :
    on_any_event fsDeck wDeck ⟨"deck.md", false⟩ = (refreshWatch fsDeck wDeck, []) :=
  (claim_C4_amended_root_event_recomputes fsDeck wDeck ⟨"deck.md", false⟩
    (by decide) (fun p => rfl) rfl (by decide) (Or.inl rfl)).1

/-- With preview off, the loop of `run_app` never sets a non-zero exit
status: the interpreter finishes the file list and exits normally. -/
theorem run_app_files_exit_zero (spawnOk : String → Bool) (pack : Bool) :
    ∀ files, (run_app_files spawnOk false pack files).exit_code = 0 := by
  intro files
  induction files with
  | nil => rfl
  | cons f rest ih =>
    rw [run_app_files]
    by_cases hs : spawnOk f = true
    · rw [if_pos hs]; exact ih
    · rw [if_neg hs]
      have : (false && !pack) = false := rfl
      rw [this, if_neg Bool.false_ne_true]
      exact ih

/-- Claim C6 as stated is false on the code: with two input files and a
renderer that can never be started, `run_app` catches the spawn failure of
the first file, goes on to attempt the second, and the run's exit status
stays `0` — it is not fatal. -/
theorem claim_C6_counterexample :
    (run_app_files (fun _ => false) false false ["a.md", "b.md"]).exit_code = 0 ∧
    "b.md" ∈ (run_app_files (fun _ => false) false false ["a.md", "b.md"]).attempted := by
  refine ⟨rfl, by decide⟩

/-- Claim C6 (amended): if the external renderer fails to start for an
input file, the failure is caught and reported with the attempted file,
and (with preview mode off) the run continues with every remaining input
file and terminates with exit status zero. -/
theorem claim_C6_amended_spawn_failure_continues (spawnOk : String → Bool) (pack : Bool) :
    ∀ files f, f ∈ files →
      f ∈ (run_app_files spawnOk false pack files).attempted ∧
      (run_app_files spawnOk false pack files).exit_code = 0 ∧
      (spawnOk f = false →
        spawnFailMsg f ∈ (run_app_files spawnOk false pack files).messages) := by
  intro files
  induction files with
  | nil => intro f hf; simp at hf
  | cons g rest ih =>
    intro f hf
    rw [run_app_files]
    by_cases hs : spawnOk g = true
    · rw [if_pos hs]
      rcases List.mem_cons.mp hf with he | h
      · subst he
        exact ⟨List.mem_cons_self _ _, run_app_files_exit_zero spawnOk pack rest,
          fun hff => absurd hs (by rw [hff]; exact Bool.false_ne_true)⟩
      · obtain ⟨h1, h2, h3⟩ := ih f h
        exact ⟨List.mem_cons_of_mem _ h1, h2, fun hff => h3 hff⟩
    · rw [if_neg hs]
      have hfp : (false && !pack) = false := rfl
      rw [hfp, if_neg Bool.false_ne_true]
      rcases List.mem_cons.mp hf with he | h
      · subst he
        exact ⟨List.mem_cons_self _ _, run_app_files_exit_zero spawnOk pack rest,
          fun _ => List.mem_cons_self _ _⟩
      · obtain ⟨h1, h2, h3⟩ := ih f h
        exact ⟨List.mem_cons_of_mem _ h1, h2,
          fun hff => List.mem_cons_of_mem _ (h3 hff)⟩

theorem claim_C6_witness :
    "b.md" ∈ (run_app_files (fun _ => false) false true ["a.md", "b.md"]).attempted ∧
    (run_app_files (fun _ => false) false true ["a.md", "b.md"]).exit_code = 0 ∧
    spawnFailMsg "b.md" ∈
      (run_app_files (fun _ => false) false true ["a.md", "b.md"]).messages := by
  have h := claim_C6_amended_spawn_failure_continues (fun _ => false) true
    ["a.md", "b.md"] "b.md" (by decide)
  exact ⟨h.1, h.2.1, h.2.2 rfl⟩
